import Mathlib

/-!
Verification of the pyomatting core (closed-form matting) against its
natural-language specification.  The Python sources are shallowly embedded:
images are functions on typed index sets, machine floats become exact
rationals, numpy arrays become functions out of `Fin`, and the two
fallible code paths (numpy ValueError on negative array dimensions,
Python ValueError from a zero-step range) become `Except` values.
External library calls (scipy sparse solve, numpy pinv, cv2 Canny and
cv2 dilate) are taken as oracle parameters.
-/

namespace Pyomatting

/-- Raveled (row-major) flat index of pixel (y, x), as in numpy
`arange(h*w).reshape(h, w)`: flat = y*w + x. -/
def ravelFin {h w : ℕ} (y : Fin h) (x : Fin w) : Fin (h * w) :=
  ⟨y.val * w + x.val, by
    have hy : y.val + 1 ≤ h := y.isLt
    calc y.val * w + x.val < y.val * w + w := by omega
      _ = (y.val + 1) * w := by ring
      _ ≤ h * w := Nat.mul_le_mul_right w hy⟩

/-- Row of a flat index (numpy `p // w`). -/
def unravelY {h w : ℕ} (p : Fin (h * w)) : Fin h :=
  ⟨p.val / w, by
    have hp := p.isLt
    have hw : 0 < w := by
      rcases Nat.eq_zero_or_pos w with h0 | h0
      · subst h0; simp at hp
      · exact h0
    exact Nat.div_lt_of_lt_mul (Nat.mul_comm h w ▸ hp)⟩

/-- Column of a flat index (numpy `p % w`). -/
def unravelX {h w : ℕ} (p : Fin (h * w)) : Fin w :=
  ⟨p.val % w, by
    have hp := p.isLt
    have hw : 0 < w := by
      rcases Nat.eq_zero_or_pos w with h0 | h0
      · subst h0; simp at hp
      · exact h0
    exact Nat.mod_lt _ hw⟩

theorem unravelY_ravel {h w : ℕ} (y : Fin h) (x : Fin w) :
    unravelY (ravelFin y x) = y := by
  apply Fin.ext
  show (y.val * w + x.val) / w = y.val
  rw [Nat.add_comm, Nat.add_mul_div_right _ _ x.pos,
    Nat.div_eq_of_lt x.isLt, Nat.zero_add]

theorem unravelX_ravel {h w : ℕ} (y : Fin h) (x : Fin w) :
    unravelX (ravelFin y x) = x := by
  apply Fin.ext
  show (y.val * w + x.val) % w = x.val
  rw [Nat.add_comm, Nat.add_mul_mod_self_right, Nat.mod_eq_of_lt x.isLt]

theorem ravel_unravel {h w : ℕ} (p : Fin (h * w)) :
    ravelFin (unravelY p) (unravelX p) = p := by
  apply Fin.ext
  show p.val / w * w + p.val % w = p.val
  exact Nat.div_add_mod' p.val w

/-- An H×W×3 color image with rational samples (exact stand-in for the
float64 reference arithmetic of laplacian.py). -/
abbrev Image (h w : ℕ) := Fin h → Fin w → Fin 3 → ℚ

/-- Failure values of `compute_laplacian` (laplacian.py).  `negativeDimensions`
models the ValueError numpy raises when the rolling-block shape
(h − 2r, w − 2r, ...) has a negative entry; `zeroChunkRange` models the
ValueError from `range(0, 0, 0)` when no window survives, since then
`chunk_size = min(10000, 0) = 0`.  `invalidDimensions` is Modelled from the
spec: section 7 of the spec names an explicit `InvalidDimensions` rejection,
a value the source never constructs. -/
inductive LapError where
  | negativeDimensions
  | zeroChunkRange
  | invalidDimensions
  deriving DecidableEq, Repr

/-- Window diameter 2r+1 (`win_diam` of laplacian.py). -/
def winDiam (r : ℕ) : ℕ := 2 * r + 1

/-- Window size (2r+1)^2 (`win_size` of laplacian.py). -/
def winSize (r : ℕ) : ℕ := (2 * r + 1) ^ 2

/-- Grid of window origins: the window with origin (y, x) covers rows
y..y+2r and columns x..x+2r; origins range over the (h−2r)×(w−2r) grid
produced by `_rolling_block` in laplacian.py. -/
abbrev Window (h w r : ℕ) := Fin (h - 2 * r) × Fin (w - 2 * r)

theorem div_winDiam_le {r : ℕ} (k : Fin (winSize r)) : k.val / winDiam r ≤ 2 * r := by
  have hk : k.val < (2 * r + 1) * (2 * r + 1) := by
    have := k.isLt
    simpa [winSize, pow_two] using this
  have hlt : k.val / (2 * r + 1) < 2 * r + 1 := Nat.div_lt_of_lt_mul hk
  simpa [winDiam] using Nat.lt_succ_iff.mp hlt

/-- The pixel addressed by entry k of the window with origin win: row
win.1 + k / (2r+1), column win.2 + k % (2r+1).  This unravels the flat index
`win_inds[y, x, k]` that `_rolling_block` reads out of
`indsM = arange(h*w).reshape(h, w)`. -/
def pixelOf {h w : ℕ} (r : ℕ) (win : Window h w r) (k : Fin (winSize r)) :
    Fin h × Fin w :=
  (⟨win.1.val + k.val / winDiam r, by
      have h1 := win.1.isLt
      have h2 := div_winDiam_le k
      omega⟩,
   ⟨win.2.val + k.val % winDiam r, by
      have h1 := win.2.isLt
      have h2 : k.val % winDiam r < winDiam r :=
        Nat.mod_lt _ (by unfold winDiam; omega)
      have h3 : winDiam r = 2 * r + 1 := rfl
      omega⟩)

/-- Flat index of entry k of window win:
`win_inds[y, x, k] = (y + k / (2r+1)) * w + (x + k % (2r+1))`. -/
def winIdx {h w : ℕ} (r : ℕ) (win : Window h w r) (k : Fin (winSize r)) :
    Fin (h * w) :=
  ravelFin (pixelOf r win k).1 (pixelOf r win k).2

/-- Binary dilation by an s×s structuring element of ones with centered anchor,
as computed by `cv2.dilate(m, ones((s, s)))` with the default constant border
that never contributes to the maximum: a pixel is set iff some in-bounds pixel
at offset (dy − s/2, dx − s/2) with dy, dx < s is set.  The equation
`y2 + s/2 = y + dy` is the ℕ form of y2 = y + dy − s/2. -/
def dilatedBy {h w : ℕ} (s : ℕ) (m : Fin h → Fin w → Bool) (y : Fin h) (x : Fin w) :
    Bool :=
  decide (∃ dy : Fin s, ∃ dx : Fin s, ∃ y2 : Fin h, ∃ x2 : Fin w,
    y2.val + s / 2 = y.val + dy.val ∧ x2.val + s / 2 = x.val + dx.val ∧ m y2 x2 = true)

/-- `win_mask` of laplacian.py: per window, the count of its pixels set in the
given (already dilated) mask, i.e. `np.sum(mask.ravel()[win_inds], axis=2)`
on a 0/1 uint8 mask. -/
def winMaskSum {h w : ℕ} (r : ℕ) (dm : Fin h → Fin w → Bool) (win : Window h w r) :
    ℕ :=
  ∑ k : Fin (winSize r),
    if dm (pixelOf r win k).1 (pixelOf r win k).2 = true then 1 else 0

/-- The windows laplacian.py keeps: all of them when no mask is given; with a
mask, exactly those whose `winMaskSum` over the mask dilated by a
(2r+1)×(2r+1) block of ones is strictly positive
(`win_inds = win_inds[win_mask > 0, :]`). -/
def selectedWindows {h w : ℕ} (mask : Option (Fin h → Fin w → Bool)) (r : ℕ) :
    Finset (Window h w r) :=
  match mask with
  | none => Finset.univ
  | some m => Finset.univ.filter fun win => 0 < winMaskSum r (dilatedBy (winDiam r) m) win

/-- The image flattened to shape (h*w, 3): `ravelImg = img.reshape(h*w, d)`. -/
def ravelImg {h w : ℕ} (img : Image h w) (p : Fin (h * w)) (c : Fin 3) : ℚ :=
  img (unravelY p) (unravelX p) c

/-- `winI`: the (2r+1)²×3 matrix of the colors of one window,
`ravelImg[chunk_inds]`. -/
def winI {h w : ℕ} (img : Image h w) (r : ℕ) (win : Window h w r)
    (k : Fin (winSize r)) (c : Fin 3) : ℚ :=
  ravelImg img (winIdx r win k) c

/-- `win_mu`: the per-channel mean color of a window. -/
def winMu {h w : ℕ} (img : Image h w) (r : ℕ) (win : Window h w r) (c : Fin 3) : ℚ :=
  (∑ k : Fin (winSize r), winI img r win k c) / (winSize r : ℚ)

/-- `win_var`: the 3×3 window covariance (winIᵀ winI)/n − μᵀμ, the two
einsum terms of laplacian.py. -/
def winVar {h w : ℕ} (img : Image h w) (r : ℕ) (win : Window h w r) :
    Matrix (Fin 3) (Fin 3) ℚ :=
  Matrix.of fun c1 c2 =>
    (∑ k : Fin (winSize r), winI img r win k c1 * winI img r win k c2) / (winSize r : ℚ)
      - winMu img r win c1 * winMu img r win c2

/-- `A = win_var + (eps/win_size) * eye(3)`. -/
def winA {h w : ℕ} (img : Image h w) (eps : ℚ) (r : ℕ) (win : Window h w r) :
    Matrix (Fin 3) (Fin 3) ℚ :=
  winVar img r win + (eps / (winSize r : ℚ)) • (1 : Matrix (Fin 3) (Fin 3) ℚ)

/-- `B = (winI − win_mu)ᵀ`, a 3×(2r+1)² matrix. -/
def winB {h w : ℕ} (img : Image h w) (r : ℕ) (win : Window h w r) :
    Matrix (Fin 3) (Fin (winSize r)) ℚ :=
  Matrix.of fun c k => winI img r win k c - winMu img r win c

/-- Exact inverse of a 3×3 rational matrix by the adjugate formula. -/
def inv3 (A : Matrix (Fin 3) (Fin 3) ℚ) : Matrix (Fin 3) (Fin 3) ℚ :=
  A.det⁻¹ • A.adjugate

/-- The Moore-Penrose pseudo-inverse `np.linalg.pinv` is an external numpy
routine; definitions take it as an oracle of this type. -/
abbrev Pinv3 := Matrix (Fin 3) (Fin 3) ℚ → Matrix (Fin 3) (Fin 3) ℚ

/-- `X`: the solution of A·X = B, transposed to (2r+1)²×3.  `np.linalg.solve`
is the exact solve, which raises LinAlgError precisely on singular matrices;
that branch falls back to `np.linalg.pinv(A) @ B`, kept as the oracle
`np_pinv` (over exact rationals A is positive definite, making the fallback
unreachable; in float arithmetic it can trigger). -/
def winX (np_pinv : Pinv3) {h w : ℕ} (img : Image h w) (eps : ℚ) (r : ℕ)
    (win : Window h w r) : Matrix (Fin (winSize r)) (Fin 3) ℚ :=
  (if (winA img eps r win).det = 0
    then np_pinv (winA img eps r win) * winB img r win
    else inv3 (winA img eps r win) * winB img r win).transpose

/-- `chunk_vals`: the per-window contribution eye(n) − (1/n)·(1 + X·B),
with the scalar 1 broadcast over the n×n product. -/
def winVals (np_pinv : Pinv3) {h w : ℕ} (img : Image h w) (eps : ℚ) (r : ℕ)
    (win : Window h w r) (a b : Fin (winSize r)) : ℚ :=
  (if a = b then 1 else 0)
    - (1 / (winSize r : ℚ)) * (1 + (winX np_pinv img eps r win * winB img r win) a b)

/-- The assembled matting Laplacian: every selected window scatter-adds its
contribution at its flat indices as both rows and columns; building the
coo_matrix and converting to csr sums duplicate (row, col) entries.  The
chunked loop of laplacian.py concatenates the identical triplets and is a
memory optimization with no effect on the assembled matrix. -/
def assembleLaplacian (np_pinv : Pinv3) {h w : ℕ} (img : Image h w)
    (mask : Option (Fin h → Fin w → Bool)) (eps : ℚ) (r : ℕ) :
    Matrix (Fin (h * w)) (Fin (h * w)) ℚ :=
  Matrix.of fun p q =>
    ∑ win ∈ selectedWindows mask r, ∑ a : Fin (winSize r), ∑ b : Fin (winSize r),
      if winIdx r win a = p ∧ winIdx r win b = q
        then winVals np_pinv img eps r win a b else 0

/-- `compute_laplacian` of laplacian.py (without the module-level cache, which
`compute_laplacian_cached` below adds): reject a negative rolling-block shape
the way numpy does, raise the `range(0, 0, 0)` ValueError when no window
survives the mask filter (also when h = 2r or w = 2r makes the window grid
empty), and otherwise assemble the Laplacian. -/
def compute_laplacian (np_pinv : Pinv3) {h w : ℕ} (img : Image h w)
    (mask : Option (Fin h → Fin w → Bool)) (eps : ℚ) (r : ℕ) :
    Except LapError (Matrix (Fin (h * w)) (Fin (h * w)) ℚ) :=
  if h < 2 * r ∨ w < 2 * r then .error .negativeDimensions
  else if selectedWindows mask r = ∅ then .error .zeroChunkRange
  else .ok (assembleLaplacian np_pinv img mask eps r)

/-- `scipy.sparse.linalg.spsolve` is an external direct solver; the matting
definitions take it as an oracle, with `none` standing for the exception
caught by the try/except of matting.py. -/
abbrev SpSolve := ∀ (α : Type) [Fintype α] [DecidableEq α],
  Matrix α α ℚ → (α → ℚ) → Option (α → ℚ)

/-- Non-fatal events the matting run reports next to its result.
`solverFallback` models the message printed by matting.py when the sparse
solve raises and the prior is substituted; the error taxonomy of the spec
names this event SolverFallback. -/
inductive MattingWarning where
  | solverFallback
  deriving DecidableEq, Repr

/-- `np.minimum(np.maximum(x, 0), 1)`. -/
def clamp01 (x : ℚ) : ℚ := min (max x 0) 1

/-- The default Laplacian regularizer 1e-7, exactly. -/
def defaultEps : ℚ := 1 / 10000000

/-- A 2D map flattened in raveled (row-major) order. -/
def ravel2 {h w : ℕ} (f : Fin h → Fin w → ℚ) (p : Fin (h * w)) : ℚ :=
  f (unravelY p) (unravelX p)

/-- The unknown-pixel mask of matting.py: the complement of `consts_map` when
one is given; otherwise the pixels with `0 < confidence < confidence.max()`,
where comparison against the attained maximum is rendered as the existence of
a strictly larger entry. -/
def unknownMaskOf {h w : ℕ} (conf : Fin h → Fin w → ℚ)
    (consts_map : Option (Fin h → Fin w → Bool)) : Fin h → Fin w → Bool :=
  match consts_map with
  | some m => fun y x => ! m y x
  | none => fun y x =>
      decide (0 < conf y x ∧ ∃ y2 : Fin h, ∃ x2 : Fin w, conf y x < conf y2 x2)

/-- The unknown mask read at flat indices (`unknown_mask.ravel()`). -/
def unknownFlat {h w : ℕ} (conf : Fin h → Fin w → ℚ)
    (consts_map : Option (Fin h → Fin w → Bool)) (p : Fin (h * w)) : Bool :=
  unknownMaskOf conf consts_map (unravelY p) (unravelX p)

/-- The unknown pixels as a subtype of flat indices (`unknown_pixels`). -/
abbrev UIdx {N : ℕ} (unkn : Fin N → Bool) := {p : Fin N // unkn p = true}

/-- The known pixels as a subtype of flat indices (`known_pixels`). -/
abbrev KIdx {N : ℕ} (unkn : Fin N → Bool) := {p : Fin N // unkn p = false}

/-- `system_matrix = laplacian_unknown + diags(confidence_unknown)`: the
unknown-unknown submatrix of L plus the diagonal of the confidences at the
unknown pixels. -/
def systemMatrixOf {N : ℕ} (L : Matrix (Fin N) (Fin N) ℚ) (confFlat : Fin N → ℚ)
    (unkn : Fin N → Bool) : Matrix (UIdx unkn) (UIdx unkn) ℚ :=
  L.submatrix Subtype.val Subtype.val + Matrix.diagonal fun u => confFlat u.val

/-- `boundary_contribution = laplacian_boundary.dot(known_values)` guarded by
`np.any(known_mask)`, with zeros when no pixel is known. -/
def boundaryOf {N : ℕ} (L : Matrix (Fin N) (Fin N) ℚ) (priorFlat : Fin N → ℚ)
    (unkn : Fin N → Bool) (u : UIdx unkn) : ℚ :=
  if ∃ p, unkn p = false
    then ∑ k : KIdx unkn, L u.val k.val * priorFlat k.val
    else 0

/-- `rhs = -boundary_contribution + confidence_unknown * prior_unknown`. -/
def rhsOf {N : ℕ} (L : Matrix (Fin N) (Fin N) ℚ) (priorFlat confFlat : Fin N → ℚ)
    (unkn : Fin N → Bool) (u : UIdx unkn) : ℚ :=
  -boundaryOf L priorFlat unkn u + confFlat u.val * priorFlat u.val

/-- The reduced sparse solve together with the non-fatal report channel: on
success the solution over the unknown pixels and no warnings; when spsolve
raises, the prior restricted to the unknown pixels and the printed
solver-fallback message. -/
def solveResultOf (S : SpSolve) {N : ℕ} (L : Matrix (Fin N) (Fin N) ℚ)
    (priorFlat confFlat : Fin N → ℚ) (unkn : Fin N → Bool) :
    (UIdx unkn → ℚ) × List MattingWarning :=
  match S (UIdx unkn) (systemMatrixOf L confFlat unkn) (rhsOf L priorFlat confFlat unkn) with
  | some x => (x, [])
  | none => (fun u => priorFlat u.val, [MattingWarning.solverFallback])

/-- `solution_full = prior.ravel().copy(); solution_full[unknown_pixels] =
solution_unknown`: the prior with the solved values written at the unknown
indices. -/
def solutionFullOf (S : SpSolve) {N : ℕ} (L : Matrix (Fin N) (Fin N) ℚ)
    (priorFlat confFlat : Fin N → ℚ) (unkn : Fin N → Bool) (p : Fin N) : ℚ :=
  if hp : unkn p = true
    then (solveResultOf S L priorFlat confFlat unkn).1 ⟨p, hp⟩
    else priorFlat p

/-- `closed_form_matting_with_prior` of matting.py.  The shape assertions hold
by typing.  If no pixel is unknown the prior is returned clamped before any
Laplacian work; otherwise the Laplacian restricted by the unknown-region mask
is built (propagating its failures), the reduced system is handed to spsolve,
and the reconstructed solution is clamped to ``[0, 1]``.  The second component
collects the non-fatal messages the run printed. -/
def closed_form_matting_with_prior (S : SpSolve) (np_pinv : Pinv3) {h w : ℕ}
    (img : Image h w) (prior prior_confidence : Fin h → Fin w → ℚ)
    (consts_map : Option (Fin h → Fin w → Bool)) :
    Except LapError ((Fin h → Fin w → ℚ) × List MattingWarning) :=
  if (Finset.univ.filter fun p =>
      unknownFlat prior_confidence consts_map p = true).card = 0 then
    .ok (fun y x => clamp01 (prior y x), [])
  else
    (compute_laplacian np_pinv img (consts_map.map fun m => fun y x => ! m y x)
        defaultEps 1).map fun L =>
      (fun y x => clamp01
          (solutionFullOf S L (ravel2 prior) (ravel2 prior_confidence)
            (unknownFlat prior_confidence consts_map) (ravelFin y x)),
       (solveResultOf S L (ravel2 prior) (ravel2 prior_confidence)
          (unknownFlat prior_confidence consts_map)).2)

/-- `consts_map = (trimap < 0.1) | (trimap > 0.9)` of
`closed_form_matting_with_trimap`. -/
def trimapConsts {h w : ℕ} (trimap : Fin h → Fin w → ℚ) (y : Fin h) (x : Fin w) :
    Bool :=
  decide (trimap y x < 1 / 10 ∨ 9 / 10 < trimap y x)

/-- `confidence_map = trimap_confidence * consts_map.astype(float64)`: κ at
known pixels, 0 at unknown ones. -/
def trimapConf {h w : ℕ} (trimap : Fin h → Fin w → ℚ) (κ : ℚ) (y : Fin h)
    (x : Fin w) : ℚ :=
  κ * (if trimapConsts trimap y x then 1 else 0)

/-- `closed_form_matting_with_trimap` of matting.py: confidence is κ at known
pixels and 0 at unknown ones, and the trimap is the prior. -/
def closed_form_matting_with_trimap (S : SpSolve) (np_pinv : Pinv3) {h w : ℕ}
    (img : Image h w) (trimap : Fin h → Fin w → ℚ) (trimap_confidence : ℚ) :
    Except LapError ((Fin h → Fin w → ℚ) × List MattingWarning) :=
  closed_form_matting_with_prior S np_pinv img trimap
    (trimapConf trimap trimap_confidence)
    (some fun y x => trimapConsts trimap y x)

/-- `cv2.Canny` is an external routine; represented as an oracle from a uint8
image to an edge map. -/
abbrev CannyOracle (h w : ℕ) := (Fin h → Fin w → ℕ) → Fin h → Fin w → ℕ

/-- `cv2.dilate` with an elliptical structuring element of the given band
radius, applied to an edge map, is external here; represented as an oracle
from edge map and band radius to the dilated map. -/
abbrev DilateOracle (h w : ℕ) := (Fin h → Fin w → ℕ) → ℕ → Fin h → Fin w → ℕ

/-- `entropy_trimap` of process_matting.py, with cv2.Canny and cv2.dilate as
oracle parameters.  Note the locals: `unknown` is widened by the dilated edge
band, but the returned trimap is written only from `bg` then `fg` over a
128-filled array, so the band never reaches the output.  The fg write comes
last in the source and wins where both thresholds hold.  Python
`int(round(.))` rounds half to even while `round` here rounds half up, a
difference confined to the unused band radius. -/
def entropy_trimap {h w : ℕ} (canny : CannyOracle h w) (dil : DilateOracle h w)
    (prob : Fin h → Fin w → ℚ) (band_ratio mid_band : ℚ) : Fin h → Fin w → ℕ :=
  let fg : Fin h → Fin w → Bool := fun y x => decide (1 / 2 + mid_band ≤ prob y x)
  let bg : Fin h → Fin w → Bool := fun y x => decide (prob y x ≤ 1 / 2 - mid_band)
  let unknown0 : Fin h → Fin w → Bool := fun y x => ! (fg y x || bg y x)
  let maskImg : Fin h → Fin w → ℕ := fun y x =>
    (if fg y x then 2 else 0) + (if bg y x then 1 else 0)
  let edges := canny fun y x => maskImg y x * 100
  let band_px : ℕ := max 1 (Int.toNat (round ((min h w : ℚ) * band_ratio)))
  let unknown : Fin h → Fin w → Bool := fun y x =>
    unknown0 y x || decide (0 < dil edges band_px y x)
  fun y x => if fg y x then 255 else if bg y x then 0 else 128

/-- The offsets of a scipy.ndimage binary-erosion structuring element: for a
positive size s, the full s×s block of ones with scipy center s/2, giving row
and column offsets from −(s/2) up to s−1−s/2; for erode_structure_size = 0
the structure argument is None and scipy falls back to the connectivity-1
cross. -/
def erosionOffsets (s : ℕ) : Finset (ℤ × ℤ) :=
  if 0 < s then
    (Finset.range s ×ˢ Finset.range s).image fun ij =>
      ((ij.1 : ℤ) - ((s / 2 : ℕ) : ℤ), (ij.2 : ℤ) - ((s / 2 : ℕ) : ℤ))
  else
    {(0, 0), (1, 0), (-1, 0), (0, 1), (0, -1)}

/-- Read a boolean image at integer coordinates, with a constant border. -/
def readB {h w : ℕ} (inp : Fin h → Fin w → Bool) (border : Bool) (y x : ℤ) :
    Bool :=
  if hy : 0 ≤ y ∧ y < (h : ℤ) then
    if hx : 0 ≤ x ∧ x < (w : ℤ) then
      inp ⟨y.toNat, by omega⟩ ⟨x.toNat, by omega⟩
    else border
  else border

/-- `scipy.ndimage.binary_erosion`: a pixel survives iff the input is true at
every structuring-element offset, out-of-bounds pixels reading as
border_value. -/
def binaryErosion {h w : ℕ} (inp : Fin h → Fin w → Bool) (s : ℕ) (border : Bool)
    (y : Fin h) (x : Fin w) : Bool :=
  decide (∀ o ∈ erosionOffsets s,
    readB inp border ((y.val : ℤ) + o.1) ((x.val : ℤ) + o.2) = true)

/-- The trimap-construction step of `alpha_matting_cutout_rembg`
(main.py lines 38-50): threshold the 8-bit mask, erode both definite sets
(the background erosion reads the border as background), and emit 128
everywhere, then 255 on the eroded foreground, then 0 on the eroded
background; the background write is applied last and wins on overlap. -/
def alpha_matting_cutout_trimap {h w : ℕ} (mask : Fin h → Fin w → ℕ)
    (foreground_threshold background_threshold erode_structure_size : ℕ) :
    Fin h → Fin w → ℕ := fun y x =>
  if binaryErosion (fun y x => decide (mask y x < background_threshold))
      erode_structure_size true y x then 0
  else if binaryErosion (fun y x => decide (foreground_threshold < mask y x))
      erode_structure_size false y x then 255
  else 128

/-- The cache key of laplacian.py `_cache_key`: the image shape (h, w, d),
`mask.shape` when a mask is given (never its contents), eps and win_rad. -/
abbrev LapCacheKey := (ℕ × ℕ × ℕ) × Option (ℕ × ℕ) × ℚ × ℕ

/-- A stored Laplacian of some order n. -/
abbrev LapEntry := (n : ℕ) × Matrix (Fin n) (Fin n) ℚ

/-- The module-level `_laplacian_cache` dict, as an association list with
distinct keys. -/
abbrev LapCache := List (LapCacheKey × LapEntry)

/-- Dict lookup on the cache. -/
def cacheLookup (key : LapCacheKey) : LapCache → Option LapEntry
  | [] => none
  | (k, e) :: rest => if k = key then some e else cacheLookup key rest

/-- `compute_laplacian` with the module-level cache of laplacian.py threaded
explicitly: the key is looked up before any other work, a hit returns the
stored matrix unconditionally, and otherwise the matrix is computed and, when
fewer than 5 entries are held, stored. -/
def compute_laplacian_cached (np_pinv : Pinv3) {h w : ℕ} (img : Image h w)
    (mask : Option (Fin h → Fin w → Bool)) (eps : ℚ) (r : ℕ) (cache : LapCache) :
    Except LapError (LapEntry × LapCache) :=
  match cacheLookup ((h, w, 3), mask.map fun _ => (h, w), eps, r) cache with
  | some e => .ok (e, cache)
  | none =>
      (compute_laplacian np_pinv img mask eps r).map fun L =>
        (⟨h * w, L⟩,
         if cache.length < 5
           then (((h, w, 3), mask.map fun _ => (h, w), eps, r), ⟨h * w, L⟩) :: cache
           else cache)

/-- The contents of one numpy buffer (integer contents such as
full_to_unknown stored as rational casts). -/
abbrev BufVal := List ℚ

/-- A store of numpy buffers addressed by allocation ids. -/
abbrev Heap := ℕ → Option BufVal

/-- Install or overwrite one buffer. -/
def heapWrite (H : Heap) (i : ℕ) (v : BufVal) : Heap :=
  fun j => if j = i then some v else H j

/-- The contents of a flat array of length N read off a function. -/
def bufOf (N : ℕ) (f : Fin N → ℚ) : BufVal := (List.finRange N).map f

/-- The arange position of an unknown pixel: the number of unknown pixels at
strictly smaller flat indices (`full_to_unknown[unknown_pixels] =
arange(num_unknown)` pairs them off in increasing flat-index order). -/
def unknownRank {N : ℕ} (unkn : Fin N → Bool) (p : Fin N) : ℕ :=
  (Finset.univ.filter fun q => unkn q = true ∧ q < p).card

/-- `closed_form_matting_with_prior` with its buffer behavior made explicit.
The heap holds every caller-visible numpy buffer; ids below `next` belong to
the caller (the input arrays among them) and every buffer this call creates
is placed at or above `next`.  The two in-place fancy assignments of
matting.py (into `np.full(h*w, -1)` at line 28 and into
`prior.ravel().copy()` at line 67) write into arrays allocated inside the
call; `np.maximum` and `np.minimum` allocate their results.  Buffers internal
to `compute_laplacian` are not tracked.  Returns the result id or the
propagated error, the final heap, and the next free id. -/
def closed_form_matting_with_prior_heap (S : SpSolve) (np_pinv : Pinv3) {h w : ℕ}
    (img : Image h w) (prior prior_confidence : Fin h → Fin w → ℚ)
    (consts_map : Option (Fin h → Fin w → Bool)) (H : Heap) (next : ℕ) :
    Except LapError ℕ × Heap × ℕ :=
  if (Finset.univ.filter fun p =>
      unknownFlat prior_confidence consts_map p = true).card = 0 then
    let H1 := heapWrite H next (bufOf (h * w) fun p => max (ravel2 prior p) 0)
    let H2 := heapWrite H1 (next + 1) (bufOf (h * w) fun p => clamp01 (ravel2 prior p))
    (.ok (next + 1), H2, next + 2)
  else
    let H1 := heapWrite H next (bufOf (h * w) fun _ => -1)
    let H2 := heapWrite H1 next (bufOf (h * w) fun p =>
      if unknownFlat prior_confidence consts_map p = true
        then (unknownRank (unknownFlat prior_confidence consts_map) p : ℚ) else -1)
    match compute_laplacian np_pinv img (consts_map.map fun m => fun y x => ! m y x)
        defaultEps 1 with
    | .error e => (.error e, H2, next + 1)
    | .ok L =>
        let sf := solutionFullOf S L (ravel2 prior) (ravel2 prior_confidence)
          (unknownFlat prior_confidence consts_map)
        let H3 := heapWrite H2 (next + 1) (bufOf (h * w) (ravel2 prior))
        let H4 := heapWrite H3 (next + 1) (bufOf (h * w) sf)
        let H5 := heapWrite H4 (next + 2) (bufOf (h * w) fun p => max (sf p) 0)
        let H6 := heapWrite H5 (next + 3) (bufOf (h * w) fun p => clamp01 (sf p))
        (.ok (next + 3), H6, next + 4)

/-- The reduced right-hand side in the form the spec states it:
−L_UK·T_K + (c·T)_U, with an unconditional sum over the known indices. -/
def specRhs {N : ℕ} (L : Matrix (Fin N) (Fin N) ℚ) (priorFlat confFlat : Fin N → ℚ)
    (unkn : Fin N → Bool) (u : UIdx unkn) : ℚ :=
  -(∑ k : KIdx unkn, L u.val k.val * priorFlat k.val) + confFlat u.val * priorFlat u.val

/-- The window filter in the form the spec states it: dilate the mask by an
n×n structuring element of ones where n = (2r+1)² is the window size, and
keep the windows whose sum over the dilated mask is strictly positive. -/
def selectedWindowsSpec {h w : ℕ} (m : Fin h → Fin w → Bool) (r : ℕ) :
    Finset (Window h w r) :=
  Finset.univ.filter fun win => 0 < winMaskSum r (dilatedBy (winSize r) m) win

theorem winSize_cast_ne {r : ℕ} : ((winSize r : ℚ)) ≠ 0 := by
  have hp : 0 < winSize r := by unfold winSize; positivity
  exact_mod_cast hp.ne'

/-- The columns of B sum to zero in every channel: the mean has been
subtracted. -/
theorem winB_row_sum {h w : ℕ} (img : Image h w) (r : ℕ) (win : Window h w r)
    (c : Fin 3) : ∑ k : Fin (winSize r), winB img r win c k = 0 := by
  have hn : ((winSize r : ℚ)) ≠ 0 := winSize_cast_ne
  simp only [winB, Matrix.of_apply, Finset.sum_sub_distrib, Finset.sum_const,
    Finset.card_univ, Fintype.card_fin, nsmul_eq_mul, winMu]
  field_simp

/-- Each row of X·B sums to zero, for any X whatsoever, because the columns
of B sum to zero. -/
theorem winXB_row_sum (np_pinv : Pinv3) {h w : ℕ} (img : Image h w) (eps : ℚ)
    (r : ℕ) (win : Window h w r) (a : Fin (winSize r)) :
    ∑ b : Fin (winSize r), (winX np_pinv img eps r win * winB img r win) a b = 0 := by
  simp only [Matrix.mul_apply]
  rw [Finset.sum_comm]
  refine Finset.sum_eq_zero fun c _ => ?_
  rw [← Finset.mul_sum, winB_row_sum, mul_zero]

/-- Each row of one window contribution eye(n) − (1/n)(1 + X·B) sums to
zero. -/
theorem winVals_row_sum (np_pinv : Pinv3) {h w : ℕ} (img : Image h w) (eps : ℚ)
    (r : ℕ) (win : Window h w r) (a : Fin (winSize r)) :
    ∑ b : Fin (winSize r), winVals np_pinv img eps r win a b = 0 := by
  have hn : ((winSize r : ℚ)) ≠ 0 := winSize_cast_ne
  unfold winVals
  rw [Finset.sum_sub_distrib]
  have h1 : ∑ b : Fin (winSize r), (if a = b then (1 : ℚ) else 0) = 1 := by simp
  have h2 : ∑ b : Fin (winSize r),
      (1 / (winSize r : ℚ)) * (1 + (winX np_pinv img eps r win * winB img r win) a b)
      = 1 := by
    rw [← Finset.mul_sum, Finset.sum_add_distrib, winXB_row_sum, add_zero,
      Finset.sum_const, Finset.card_univ, Fintype.card_fin, nsmul_eq_mul, mul_one]
    field_simp
  rw [h1, h2, sub_self]

/-- Every row of the assembled Laplacian sums to zero: the scatter-add sends
whole rows of each window contribution to a single row of L. -/
theorem assembleLaplacian_row_sum (np_pinv : Pinv3) {h w : ℕ} (img : Image h w)
    (mask : Option (Fin h → Fin w → Bool)) (eps : ℚ) (r : ℕ) (p : Fin (h * w)) :
    ∑ q, assembleLaplacian np_pinv img mask eps r p q = 0 := by
  unfold assembleLaplacian
  simp only [Matrix.of_apply]
  rw [Finset.sum_comm]
  refine Finset.sum_eq_zero fun win _ => ?_
  rw [Finset.sum_comm]
  refine Finset.sum_eq_zero fun a _ => ?_
  rw [Finset.sum_comm]
  have collapse : ∀ b : Fin (winSize r),
      (∑ q : Fin (h * w), if winIdx r win a = p ∧ winIdx r win b = q
        then winVals np_pinv img eps r win a b else 0)
      = if winIdx r win a = p then winVals np_pinv img eps r win a b else 0 := by
    intro b
    by_cases hP : winIdx r win a = p
    · simp [hP, Finset.sum_ite_eq]
    · simp [hP]
  rw [Finset.sum_congr rfl fun b _ => collapse b]
  by_cases hP : winIdx r win a = p
  · simp only [hP, if_true]
    exact winVals_row_sum np_pinv img eps r win a
  · simp [hP]

/-- Dilation by a centered block of ones keeps every set pixel (offset
(r, r) maps the pixel to itself). -/
theorem dilatedBy_self {h w : ℕ} (r : ℕ) (m : Fin h → Fin w → Bool) (y : Fin h)
    (x : Fin w) (hm : m y x = true) : dilatedBy (winDiam r) m y x = true := by
  unfold dilatedBy
  rw [decide_eq_true_eq]
  refine ⟨⟨r, by unfold winDiam; omega⟩, ⟨r, by unfold winDiam; omega⟩, y, x, ?_, ?_, hm⟩
  · show y.val + winDiam r / 2 = y.val + r
    have : winDiam r = 2 * r + 1 := rfl
    omega
  · show x.val + winDiam r / 2 = x.val + r
    have : winDiam r = 2 * r + 1 := rfl
    omega

theorem encode_lt {r a b : ℕ} (ha : a ≤ 2 * r) (hb : b ≤ 2 * r) :
    a * winDiam r + b < winSize r := by
  have h1 : a * winDiam r ≤ 2 * r * winDiam r := Nat.mul_le_mul_right _ ha
  have h2 : winSize r = 2 * r * winDiam r + winDiam r := by unfold winSize winDiam; ring
  have h3 : winDiam r = 2 * r + 1 := rfl
  omega

/-- Decoding of the row-major window entry a*(2r+1)+b. -/
theorem pixelOf_encode {h w r : ℕ} (win : Window h w r) {a b : ℕ} (ha : a ≤ 2 * r)
    (hb : b ≤ 2 * r) :
    pixelOf r win ⟨a * winDiam r + b, encode_lt ha hb⟩ =
      (⟨win.1.val + a, by have := win.1.isLt; omega⟩,
       ⟨win.2.val + b, by have := win.2.isLt; omega⟩) := by
  have hd : winDiam r = 2 * r + 1 := rfl
  have hbd : b < winDiam r := by omega
  have hdpos : 0 < winDiam r := by omega
  unfold pixelOf
  refine Prod.ext ?_ ?_
  · apply Fin.ext
    show win.1.val + (a * winDiam r + b) / winDiam r = win.1.val + a
    congr 1
    rw [Nat.add_comm (a * winDiam r) b, Nat.add_mul_div_right _ _ hdpos,
      Nat.div_eq_of_lt hbd, Nat.zero_add]
  · apply Fin.ext
    show win.2.val + (a * winDiam r + b) % winDiam r = win.2.val + b
    congr 1
    rw [Nat.add_comm (a * winDiam r) b, Nat.add_mul_mod_self_right,
      Nat.mod_eq_of_lt hbd]

/-- When the refinement mask has a set pixel and the image is at least
(2r+1)×(2r+1), some window survives the filter: a window containing that
pixel does. -/
theorem selectedWindows_nonempty_some {h w r : ℕ} (m : Fin h → Fin w → Bool)
    (hh : 2 * r + 1 ≤ h) (hw : 2 * r + 1 ≤ w) {py : Fin h} {px : Fin w}
    (hm : m py px = true) : @selectedWindows h w (some m) r ≠ ∅ := by
  have hpy := py.isLt
  have hpx := px.isLt
  set wy : ℕ := min py.val (h - 2 * r - 1) with hwy
  set wx : ℕ := min px.val (w - 2 * r - 1) with hwx
  have hwin1 : wy < h - 2 * r := by omega
  have hwin2 : wx < w - 2 * r := by omega
  set win : Window h w r := (⟨wy, hwin1⟩, ⟨wx, hwin2⟩) with hwin
  have ha : py.val - wy ≤ 2 * r := by omega
  have hb : px.val - wx ≤ 2 * r := by omega
  set k0 : Fin (winSize r) := ⟨(py.val - wy) * winDiam r + (px.val - wx), encode_lt ha hb⟩
  have hpix : pixelOf r win k0 = (py, px) := by
    rw [pixelOf_encode win ha hb]
    refine Prod.ext (Fin.ext ?_) (Fin.ext ?_)
    · show wy + (py.val - wy) = py.val
      omega
    · show wx + (px.val - wx) = px.val
      omega
  have hdm : dilatedBy (winDiam r) m (pixelOf r win k0).1 (pixelOf r win k0).2 = true := by
    rw [hpix]
    exact dilatedBy_self r m py px hm
  have hsum : 0 < winMaskSum r (dilatedBy (winDiam r) m) win := by
    unfold winMaskSum
    refine Finset.sum_pos' (fun k _ => by positivity) ⟨k0, Finset.mem_univ k0, ?_⟩
    rw [hdm]
    norm_num
  have hmem : win ∈ @selectedWindows h w (some m) r := by
    unfold selectedWindows
    exact Finset.mem_filter.mpr ⟨Finset.mem_univ _, hsum⟩
  exact Finset.ne_empty_of_mem hmem

/-- Under the spec preconditions H, W ≥ 2r+1, and a nonempty mask if one is
given, `compute_laplacian` succeeds and returns the assembled Laplacian. -/
theorem compute_laplacian_ok (np_pinv : Pinv3) {h w : ℕ} (img : Image h w)
    (mask : Option (Fin h → Fin w → Bool)) (eps : ℚ) (r : ℕ)
    (hh : 2 * r + 1 ≤ h) (hw : 2 * r + 1 ≤ w)
    (hm : mask = none ∨ ∃ m, mask = some m ∧ ∃ y x, m y x = true) :
    compute_laplacian np_pinv img mask eps r
      = .ok (assembleLaplacian np_pinv img mask eps r) := by
  have hne : @selectedWindows h w mask r ≠ ∅ := by
    rcases hm with rfl | ⟨m, rfl, y, x, hmx⟩
    · have hinst : Nonempty (Window h w r) :=
        ⟨(⟨0, by omega⟩, ⟨0, by omega⟩)⟩
      unfold selectedWindows
      exact (Finset.univ_nonempty).ne_empty
    · exact selectedWindows_nonempty_some m hh hw hmx
  unfold compute_laplacian
  rw [if_neg (by omega : ¬(h < 2 * r ∨ w < 2 * r)), if_neg hne]

/-- C3: for every image with H ≥ 2r+1 and W ≥ 2r+1 (and, when a refinement
mask is supplied, at least one set mask pixel so that a window survives),
`compute_laplacian` returns a matrix every row of which sums to exactly zero
in exact arithmetic - hence within any tolerance - so the constant vector
lies in the null space of L. -/
theorem C3_laplacian_row_sums_zero (np_pinv : Pinv3) {h w : ℕ} (img : Image h w)
    (mask : Option (Fin h → Fin w → Bool)) (eps : ℚ) (r : ℕ)
    (hh : 2 * r + 1 ≤ h) (hw : 2 * r + 1 ≤ w)
    (hm : mask = none ∨ ∃ m, mask = some m ∧ ∃ y x, m y x = true) :
    ∃ L, compute_laplacian np_pinv img mask eps r = .ok L ∧
      ∀ p, ∑ q, L p q = 0 :=
  ⟨assembleLaplacian np_pinv img mask eps r,
   compute_laplacian_ok np_pinv img mask eps r hh hw hm,
   assembleLaplacian_row_sum np_pinv img mask eps r⟩

/-- Witness for C3 at a concrete 3×3 gray image, no mask, default
parameters. -/
theorem C3_laplacian_row_sums_zero_witness :
    ∃ L, compute_laplacian (fun _ => 0) ((fun _ _ _ => 1 / 2) : Image 3 3)
        none defaultEps 1 = .ok L ∧ ∀ p, ∑ q, L p q = 0 :=
  C3_laplacian_row_sums_zero (fun _ => 0) ((fun _ _ _ => 1 / 2) : Image 3 3)
    none defaultEps 1 (by decide) (by decide) (Or.inl rfl)

/-- C9 counterexample: on a concrete 1×5 image (H < 2r+1 for the default
r = 1) `compute_laplacian` fails with the numpy negative-dimension
ValueError, not with the InvalidDimensions error value the claim names. -/
theorem C9_counterexample :
    compute_laplacian (fun _ => 0) ((fun _ _ _ => 0) : Image 1 5) none defaultEps 1
        = .error .negativeDimensions ∧
      compute_laplacian (fun _ => 0) ((fun _ _ _ => 0) : Image 1 5) none defaultEps 1
        ≠ .error .invalidDimensions := by
  constructor
  · unfold compute_laplacian
    rw [if_pos (by omega)]
  · unfold compute_laplacian
    rw [if_pos (by omega)]
    simp

/-- C9 amended: inputs with H < 2r+1 or W < 2r+1 never produce a matrix -
`compute_laplacian` always fails on them - but the failure is the incidental
numpy negative-dimension error or the zero-step-range error, never an
explicit InvalidDimensions error value. -/
theorem C9_small_inputs_fail (np_pinv : Pinv3) {h w : ℕ} (img : Image h w)
    (mask : Option (Fin h → Fin w → Bool)) (eps : ℚ) (r : ℕ)
    (hsmall : h < 2 * r + 1 ∨ w < 2 * r + 1) :
    ∃ e, compute_laplacian np_pinv img mask eps r = .error e ∧
      e ≠ LapError.invalidDimensions := by
  by_cases hneg : h < 2 * r ∨ w < 2 * r
  · refine ⟨.negativeDimensions, ?_, by simp⟩
    unfold compute_laplacian
    rw [if_pos hneg]
  · have hempty : @selectedWindows h w mask r = ∅ :=
      Finset.eq_empty_of_forall_not_mem fun win _ => by
        have h1 := win.1.isLt
        have h2 := win.2.isLt
        omega
    refine ⟨.zeroChunkRange, ?_, by simp⟩
    unfold compute_laplacian
    rw [if_neg hneg, if_pos hempty]

/-- Witness for the amended C9 at the concrete 1×5 input. -/
theorem C9_small_inputs_fail_witness :
    ∃ e, compute_laplacian (fun _ => 0) ((fun _ _ _ => 1) : Image 1 5) none
        defaultEps 1 = .error e ∧ e ≠ LapError.invalidDimensions :=
  C9_small_inputs_fail (fun _ => 0) ((fun _ _ _ => 1) : Image 1 5) none defaultEps 1
    (by omega)

/-- C7 amended: with a refinement mask, the windows contributing to L are
exactly those whose sum over the dilation of M by a structuring element of
ones of side 2r+1 - the window diameter, not the window size n = (2r+1)² the
claim states - is strictly positive, equivalently the windows containing at
least one pixel of the dilated mask. -/
theorem C7_selected_windows {h w : ℕ} (m : Fin h → Fin w → Bool) (r : ℕ) :
    @selectedWindows h w (some m) r
      = Finset.univ.filter fun win => ∃ k : Fin (winSize r),
          dilatedBy (winDiam r) m (pixelOf r win k).1 (pixelOf r win k).2 = true := by
  unfold selectedWindows
  apply Finset.filter_congr
  intro win _
  unfold winMaskSum
  constructor
  · intro hpos
    by_contra hne
    push_neg at hne
    rw [Finset.sum_eq_zero fun k _ => if_neg (hne k)] at hpos
    exact lt_irrefl 0 hpos
  · rintro ⟨k, hk⟩
    refine Finset.sum_pos' (fun _ _ => by positivity) ⟨k, Finset.mem_univ k, ?_⟩
    rw [hk]
    norm_num

/-- C7 counterexample: on a 5×5 mask with a single set corner pixel and
r = 1, the filter laplacian.py applies (dilation by the 3×3 window diameter)
keeps only the windows near that corner, while the filter the claim states
(dilation by a 9×9 element of ones, n = window size) keeps all nine
windows. -/
theorem C7_counterexample :
    @selectedWindows 5 5 (some fun y x => decide (y.val = 0 ∧ x.val = 0)) 1
      ≠ selectedWindowsSpec (fun y x => decide (y.val = 0 ∧ x.val = 0)) 1 := by
  intro heq
  have hspec : (⟨⟨2, by omega⟩, ⟨2, by omega⟩⟩ : Window 5 5 1)
      ∈ selectedWindowsSpec (fun y x => decide (y.val = 0 ∧ x.val = 0)) 1 := by
    unfold selectedWindowsSpec
    rw [Finset.mem_filter]
    exact ⟨Finset.mem_univ _, by decide⟩
  have hcode : (⟨⟨2, by omega⟩, ⟨2, by omega⟩⟩ : Window 5 5 1)
      ∉ @selectedWindows 5 5 (some fun y x => decide (y.val = 0 ∧ x.val = 0)) 1 := by
    unfold selectedWindows
    rw [Finset.mem_filter]
    intro hand
    exact (by decide : ¬ 0 < winMaskSum 1
      (dilatedBy (winDiam 1) fun y x => decide (y.val = 0 ∧ x.val = 0))
      (⟨⟨2, by omega⟩, ⟨2, by omega⟩⟩ : Window 5 5 1)) hand.2
  rw [heq] at hcode
  exact hcode hspec

theorem compute_laplacian_cached_hit (np_pinv : Pinv3) {h w : ℕ} (img : Image h w)
    (mask : Option (Fin h → Fin w → Bool)) (eps : ℚ) (r : ℕ) (cache : LapCache)
    (e : LapEntry)
    (hl : cacheLookup ((h, w, 3), mask.map fun _ => (h, w), eps, r) cache = some e) :
    compute_laplacian_cached np_pinv img mask eps r cache = .ok (e, cache) := by
  unfold compute_laplacian_cached
  rw [hl]

theorem compute_laplacian_cached_miss (np_pinv : Pinv3) {h w : ℕ} (img : Image h w)
    (mask : Option (Fin h → Fin w → Bool)) (eps : ℚ) (r : ℕ) (cache : LapCache)
    (L : Matrix (Fin (h * w)) (Fin (h * w)) ℚ)
    (hl : cacheLookup ((h, w, 3), mask.map fun _ => (h, w), eps, r) cache = none)
    (hc : compute_laplacian np_pinv img mask eps r = .ok L)
    (hlen : cache.length < 5) :
    compute_laplacian_cached np_pinv img mask eps r cache
      = .ok (⟨h * w, L⟩,
          (((h, w, 3), mask.map fun _ => (h, w), eps, r), ⟨h * w, L⟩) :: cache) := by
  unfold compute_laplacian_cached
  rw [hl, hc]
  simp only [Except.map, if_pos hlen]

/-- C4: two cached runs agreeing on image shape, mask presence (hence mask
shape), eps and win_rad - while the cache holds fewer than its bound of 5
entries - return the same matrix, regardless of the pixel contents of either
image or mask.  The hypotheses on the first mask only ensure the first run
does not fail before anything is cached. -/
theorem C4_cache_ignores_pixel_contents (np_pinv : Pinv3) {h w : ℕ}
    (img1 img2 : Image h w) (mask1 mask2 : Option (Fin h → Fin w → Bool))
    (eps : ℚ) (r : ℕ) (cache : LapCache)
    (hh : 2 * r + 1 ≤ h) (hw : 2 * r + 1 ≤ w)
    (hpresence : mask1.isSome = mask2.isSome)
    (hm1 : mask1 = none ∨ ∃ m, mask1 = some m ∧ ∃ y x, m y x = true)
    (hlen : cache.length < 5) :
    ∃ L1 c1, compute_laplacian_cached np_pinv img1 mask1 eps r cache = .ok (L1, c1) ∧
      compute_laplacian_cached np_pinv img2 mask2 eps r c1 = .ok (L1, c1) := by
  have hkey : (mask2.map fun _ => ((h : ℕ), (w : ℕ)))
      = (mask1.map fun _ => ((h : ℕ), (w : ℕ))) := by
    cases mask1 <;> cases mask2 <;> simp_all
  cases hlook : cacheLookup ((h, w, 3), mask1.map fun _ => (h, w), eps, r) cache with
  | some e =>
      refine ⟨e, cache, compute_laplacian_cached_hit np_pinv img1 mask1 eps r cache e hlook, ?_⟩
      refine compute_laplacian_cached_hit np_pinv img2 mask2 eps r cache e ?_
      rw [hkey]
      exact hlook
  | none =>
      have hc := compute_laplacian_ok np_pinv img1 mask1 eps r hh hw hm1
      refine ⟨⟨h * w, assembleLaplacian np_pinv img1 mask1 eps r⟩,
        (((h, w, 3), mask1.map fun _ => (h, w), eps, r),
          ⟨h * w, assembleLaplacian np_pinv img1 mask1 eps r⟩) :: cache,
        compute_laplacian_cached_miss np_pinv img1 mask1 eps r cache _ hlook hc hlen, ?_⟩
      refine compute_laplacian_cached_hit np_pinv img2 mask2 eps r _ _ ?_
      rw [hkey]
      unfold cacheLookup
      rw [if_pos rfl]

/-- Witness for C4: two concrete 3×3 images with different pixel contents, no
mask, empty cache. -/
theorem C4_cache_ignores_pixel_contents_witness :
    ∃ L1 c1, compute_laplacian_cached (fun _ => 0) ((fun _ _ _ => 0) : Image 3 3)
        none defaultEps 1 [] = .ok (L1, c1) ∧
      compute_laplacian_cached (fun _ => 0) ((fun _ _ _ => 1) : Image 3 3)
        none defaultEps 1 c1 = .ok (L1, c1) :=
  C4_cache_ignores_pixel_contents (fun _ => 0) ((fun _ _ _ => 0) : Image 3 3)
    ((fun _ _ _ => 1) : Image 3 3) none none defaultEps 1 []
    (by decide) (by decide) rfl (Or.inl rfl) (by decide)

/-- C5: when every trimap value is below 0.1 or above 0.9 - so no pixel is
unknown - `closed_form_matting_with_trimap` returns exactly the trimap
clamped to [0, 1] with no warnings, taking the early return that precedes the
Laplacian build and the linear solve. -/
theorem C5_all_known_returns_clamped_trimap (S : SpSolve) (np_pinv : Pinv3)
    {h w : ℕ} (img : Image h w) (trimap : Fin h → Fin w → ℚ) (κ : ℚ)
    (hT : ∀ y x, trimap y x < 1 / 10 ∨ 9 / 10 < trimap y x) :
    closed_form_matting_with_trimap S np_pinv img trimap κ
      = .ok (fun y x => clamp01 (trimap y x), []) := by
  unfold closed_form_matting_with_trimap closed_form_matting_with_prior
  rw [if_pos]
  rw [Finset.card_eq_zero, Finset.filter_eq_empty_iff]
  intro p _
  have hc : trimapConsts trimap (unravelY p) (unravelX p) = true := by
    unfold trimapConsts
    rw [decide_eq_true_eq]
    exact hT _ _
  simp [unknownFlat, unknownMaskOf, hc]

/-- Witness for C5: a 2×2 all-foreground trimap. -/
theorem C5_all_known_returns_clamped_trimap_witness :
    closed_form_matting_with_trimap (fun _ _ _ _ _ => none) (fun _ => 0)
        ((fun _ _ _ => 1 / 2) : Image 2 2) (fun _ _ => 1) 100
      = .ok (fun y x => clamp01 ((fun _ _ => (1 : ℚ)) y x), []) :=
  C5_all_known_returns_clamped_trimap (fun _ _ _ _ _ => none) (fun _ => 0)
    ((fun _ _ _ => 1 / 2) : Image 2 2) (fun _ _ => 1) 100
    (fun _ _ => by norm_num)

/-- The guarded boundary term of matting.py equals the unconditional spec
form −L_UK·T_K + (c·T)_U: when no pixel is known the sum over the empty
known index set is zero, which is what the guard substitutes. -/
theorem rhsOf_eq_specRhs {N : ℕ} (L : Matrix (Fin N) (Fin N) ℚ)
    (priorFlat confFlat : Fin N → ℚ) (unkn : Fin N → Bool) :
    rhsOf L priorFlat confFlat unkn = specRhs L priorFlat confFlat unkn := by
  funext u
  unfold rhsOf specRhs boundaryOf
  by_cases hk : ∃ p, unkn p = false
  · rw [if_pos hk]
  · rw [if_neg hk]
    haveI : IsEmpty (KIdx unkn) := ⟨fun k => hk ⟨k.1, k.2⟩⟩
    rw [Finset.univ_eq_empty, Finset.sum_empty]

/-- C1: with at least one unknown pixel and the spec minimum size
H, W ≥ 3 = 2r+1 for the default radius, `closed_form_matting_with_trimap`
hands the sparse solver exactly the reduced system
(L_UU + diag(c)_U)·x_U = −L_UK·T_K + (c·T)_U - L being the Laplacian
restricted to the unknown region and c the confidence map, κ at known and 0
at unknown pixels - and whenever the solver returns a solution x_U it
returns the full vector that copies T at the known indices and x_U at the
unknown ones, clamped to [0, 1], with no warnings. -/
theorem C1_reduced_system_solved (S : SpSolve) (np_pinv : Pinv3) {h w : ℕ}
    (img : Image h w) (T : Fin h → Fin w → ℚ) (κ : ℚ)
    (hh : 3 ≤ h) (hw : 3 ≤ w)
    (xU : UIdx (unknownFlat (trimapConf T κ) (some fun y x => trimapConsts T y x)) → ℚ)
    (hU : ∃ y x, trimapConsts T y x = false)
    (hs : S (UIdx (unknownFlat (trimapConf T κ) (some fun y x => trimapConsts T y x)))
        (systemMatrixOf
          (assembleLaplacian np_pinv img (some fun y x => ! trimapConsts T y x)
            defaultEps 1)
          (ravel2 (trimapConf T κ))
          (unknownFlat (trimapConf T κ) (some fun y x => trimapConsts T y x)))
        (specRhs
          (assembleLaplacian np_pinv img (some fun y x => ! trimapConsts T y x)
            defaultEps 1)
          (ravel2 T) (ravel2 (trimapConf T κ))
          (unknownFlat (trimapConf T κ) (some fun y x => trimapConsts T y x)))
      = some xU) :
    closed_form_matting_with_trimap S np_pinv img T κ
      = .ok (fun y x => clamp01
          (if hp : unknownFlat (trimapConf T κ) (some fun y x => trimapConsts T y x)
              (ravelFin y x) = true
            then xU ⟨ravelFin y x, hp⟩ else T y x), []) := by
  obtain ⟨y0, x0, hyx⟩ := hU
  have hunkn : unknownFlat (trimapConf T κ) (some fun y x => trimapConsts T y x)
      (ravelFin y0 x0) = true := by
    simp only [unknownFlat, unknownMaskOf, unravelY_ravel, unravelX_ravel, hyx,
      Bool.not_false]
  have hcard : ¬ (Finset.univ.filter fun p =>
      unknownFlat (trimapConf T κ) (some fun y x => trimapConsts T y x) p
        = true).card = 0 := by
    rw [Finset.card_eq_zero]
    intro hempty
    have hmem : ravelFin y0 x0 ∈ (Finset.univ.filter fun p =>
        unknownFlat (trimapConf T κ) (some fun y x => trimapConsts T y x) p = true) :=
      Finset.mem_filter.mpr ⟨Finset.mem_univ _, hunkn⟩
    rw [hempty] at hmem
    simp at hmem
  unfold closed_form_matting_with_trimap closed_form_matting_with_prior
  rw [if_neg hcard]
  rw [show ((some fun y x => trimapConsts T y x : Option (Fin h → Fin w → Bool)).map
      fun m => fun y x => ! m y x) = some fun y x => ! trimapConsts T y x from rfl]
  rw [compute_laplacian_ok np_pinv img (some fun y x => ! trimapConsts T y x)
    defaultEps 1 (by omega) (by omega)
    (Or.inr ⟨fun y x => ! trimapConsts T y x, rfl, y0, x0, by
      show (! trimapConsts T y0 x0) = true
      rw [hyx]
      rfl⟩)]
  have hsolve : solveResultOf S
      (assembleLaplacian np_pinv img (some fun y x => ! trimapConsts T y x) defaultEps 1)
      (ravel2 T) (ravel2 (trimapConf T κ))
      (unknownFlat (trimapConf T κ) (some fun y x => trimapConsts T y x)) = (xU, []) := by
    unfold solveResultOf
    rw [rhsOf_eq_specRhs, hs]
  simp only [Except.map]
  refine congrArg Except.ok (Prod.ext ?_ ?_)
  · funext y x
    show clamp01 _ = clamp01 _
    congr 1
    unfold solutionFullOf
    by_cases hp : unknownFlat (trimapConf T κ) (some fun y x => trimapConsts T y x)
        (ravelFin y x) = true
    · rw [dif_pos hp, dif_pos hp, hsolve]
    · rw [dif_neg hp, dif_neg hp]
      unfold ravel2
      rw [unravelY_ravel, unravelX_ravel]
  · show (solveResultOf _ _ _ _ _).2 = []
    rw [hsolve]

/-- Witness for C1: a 3×3 gray image whose trimap is 1/2 (unknown)
everywhere, with a solver oracle that answers the zero vector. -/
theorem C1_reduced_system_solved_witness :
    closed_form_matting_with_trimap (fun _ _ _ _ _ => some fun _ => 0) (fun _ => 0)
        ((fun _ _ _ => 1 / 2) : Image 3 3) (fun _ _ => 1 / 2) 100
      = .ok (fun y x => clamp01
          (if hp : unknownFlat
              (trimapConf (fun _ _ : Fin 3 => (1 : ℚ) / 2) 100)
              (some fun y x => trimapConsts (fun _ _ : Fin 3 => (1 : ℚ) / 2) y x)
              (ravelFin y x) = true
            then (fun _ => (0 : ℚ)) (⟨ravelFin y x, hp⟩ :
              UIdx (unknownFlat
                (trimapConf (fun _ _ : Fin 3 => (1 : ℚ) / 2) 100)
                (some fun y x => trimapConsts (fun _ _ : Fin 3 => (1 : ℚ) / 2) y x)))
            else (1 : ℚ) / 2), []) :=
  C1_reduced_system_solved (fun _ _ _ _ _ => some fun _ => 0) (fun _ => 0)
    ((fun _ _ _ => 1 / 2) : Image 3 3) (fun _ _ => 1 / 2) 100
    (by omega) (by omega) (fun _ => 0)
    ⟨0, 0, by
      unfold trimapConsts
      rw [decide_eq_false_iff_not]
      norm_num⟩
    rfl

/-- C6: when the sparse solve raises (oracle answer `none`) and the run
reaches the solver - at least one unknown pixel and the spec minimum sizes -
`closed_form_matting_with_prior` returns the prior clamped to [0, 1] at every
pixel, known and unknown alike, together with the non-fatal solver-fallback
report of the except branch. -/
theorem C6_solver_fallback (S : SpSolve) (np_pinv : Pinv3) {h w : ℕ}
    (img : Image h w) (prior conf : Fin h → Fin w → ℚ) (m : Fin h → Fin w → Bool)
    (hh : 3 ≤ h) (hw : 3 ≤ w)
    (hU : ∃ y x, m y x = false)
    (hs : S (UIdx (unknownFlat conf (some m)))
        (systemMatrixOf
          (assembleLaplacian np_pinv img (some fun y x => ! m y x) defaultEps 1)
          (ravel2 conf) (unknownFlat conf (some m)))
        (rhsOf (assembleLaplacian np_pinv img (some fun y x => ! m y x) defaultEps 1)
          (ravel2 prior) (ravel2 conf) (unknownFlat conf (some m)))
      = none) :
    closed_form_matting_with_prior S np_pinv img prior conf (some m)
      = .ok (fun y x => clamp01 (prior y x), [MattingWarning.solverFallback]) := by
  obtain ⟨y0, x0, hyx⟩ := hU
  have hunkn : unknownFlat conf (some m) (ravelFin y0 x0) = true := by
    simp only [unknownFlat, unknownMaskOf, unravelY_ravel, unravelX_ravel, hyx,
      Bool.not_false]
  have hcard : ¬ (Finset.univ.filter fun p =>
      unknownFlat conf (some m) p = true).card = 0 := by
    rw [Finset.card_eq_zero]
    intro hempty
    have hmem : ravelFin y0 x0 ∈ (Finset.univ.filter fun p =>
        unknownFlat conf (some m) p = true) :=
      Finset.mem_filter.mpr ⟨Finset.mem_univ _, hunkn⟩
    rw [hempty] at hmem
    simp at hmem
  unfold closed_form_matting_with_prior
  rw [if_neg hcard]
  rw [show ((some m : Option (Fin h → Fin w → Bool)).map fun m => fun y x => ! m y x)
    = some fun y x => ! m y x from rfl]
  rw [compute_laplacian_ok np_pinv img (some fun y x => ! m y x) defaultEps 1
    (by omega) (by omega)
    (Or.inr ⟨fun y x => ! m y x, rfl, y0, x0, by
      show (! m y0 x0) = true
      rw [hyx]
      rfl⟩)]
  have hsolve : solveResultOf S
      (assembleLaplacian np_pinv img (some fun y x => ! m y x) defaultEps 1)
      (ravel2 prior) (ravel2 conf) (unknownFlat conf (some m))
      = (fun u => ravel2 prior u.val, [MattingWarning.solverFallback]) := by
    unfold solveResultOf
    rw [hs]
  simp only [Except.map]
  refine congrArg Except.ok (Prod.ext ?_ ?_)
  · funext y x
    show clamp01 _ = clamp01 _
    congr 1
    unfold solutionFullOf
    by_cases hp : unknownFlat conf (some m) (ravelFin y x) = true
    · rw [dif_pos hp, hsolve]
      show ravel2 prior (ravelFin y x) = prior y x
      unfold ravel2
      rw [unravelY_ravel, unravelX_ravel]
    · rw [dif_neg hp]
      unfold ravel2
      rw [unravelY_ravel, unravelX_ravel]
  · show (solveResultOf _ _ _ _ _).2 = [MattingWarning.solverFallback]
    rw [hsolve]

/-- Witness for C6: a 3×3 gray image, everything unknown, an oracle that
always fails. -/
theorem C6_solver_fallback_witness :
    closed_form_matting_with_prior (fun _ _ _ _ _ => none) (fun _ => 0)
        ((fun _ _ _ => 1 / 2) : Image 3 3) (fun _ _ => 1 / 2) (fun _ _ => 0)
        (some fun _ _ => false)
      = .ok (fun y x => clamp01 ((fun _ _ => (1 : ℚ) / 2) y x),
          [MattingWarning.solverFallback]) :=
  C6_solver_fallback (fun _ _ _ _ _ => none) (fun _ => 0)
    ((fun _ _ _ => 1 / 2) : Image 3 3) (fun _ _ => 1 / 2) (fun _ _ => 0)
    (fun _ _ => false) (by omega) (by omega) ⟨0, 0, rfl⟩ rfl

/-- C2: on the concrete 1×2 probability map (0.8, 0.2) with the defaults
band_ratio = 0.01 and mid_band = 0.2, and for every behavior of the cv2.Canny
and cv2.dilate oracles, the entropy trimap is (255, 0): foreground directly
adjacent to background with no unknown pixel anywhere.  The dilated edge band
assembled into the local `unknown` at line 29 of process_matting.py never
reaches the returned trimap, so no pixel of any dilated band is emitted as
128 and the fg/bg boundary crosses no unknown pixel. -/
theorem C2_entropy_band_never_applied (canny : CannyOracle 1 2)
    (dil : DilateOracle 1 2) :
    (∀ y, entropy_trimap canny dil (fun _ x => 4 / 5 - (x.val : ℚ) * (3 / 5))
        (1 / 100) (1 / 5) y 0 = 255) ∧
    (∀ y, entropy_trimap canny dil (fun _ x => 4 / 5 - (x.val : ℚ) * (3 / 5))
        (1 / 100) (1 / 5) y 1 = 0) ∧
    (∀ y x, entropy_trimap canny dil (fun _ x => 4 / 5 - (x.val : ℚ) * (3 / 5))
        (1 / 100) (1 / 5) y x ≠ 128) := by
  refine ⟨fun y => ?_, fun y => ?_, fun y x => ?_⟩
  · simp only [entropy_trimap, decide_eq_true_eq]
    rw [if_pos (by norm_num)]
  · simp only [entropy_trimap, decide_eq_true_eq]
    rw [if_neg (by norm_num), if_pos (by norm_num)]
  · simp only [entropy_trimap, decide_eq_true_eq]
    fin_cases x
    · rw [if_pos (by norm_num)]
      norm_num
    · rw [if_neg (by norm_num), if_pos (by norm_num)]
      norm_num

set_option maxRecDepth 10000 in
/-- C8 counterexample: on the 1×7 mask (255, 0, 0, 0, 0, 0, 0) the threshold
trimap step (defaults 240/10/10) yields (128, ..., 128, 0), and applying the
step to that output erodes the background region away, yielding all-128 - so
the step is not idempotent. -/
theorem C8_counterexample :
    alpha_matting_cutout_trimap
        (alpha_matting_cutout_trimap
          (fun _ x : Fin 7 => if x.val = 0 then 255 else 0) 240 10 10)
        240 10 10
      ≠ alpha_matting_cutout_trimap
          (fun _ x : Fin 7 => if x.val = 0 then 255 else 0) 240 10 10 := by
  intro heq
  have hpt := congrFun (congrFun heq 0) ⟨6, by omega⟩
  revert hpt
  decide

/-- A binary erosion by a structuring element containing the origin is
anti-extensive: a surviving pixel was set in the input. -/
theorem binaryErosion_le {h w : ℕ} (inp : Fin h → Fin w → Bool) (s : ℕ)
    (b : Bool) (y : Fin h) (x : Fin w)
    (he : binaryErosion inp s b y x = true) : inp y x = true := by
  unfold binaryErosion at he
  rw [decide_eq_true_eq] at he
  have h00 : ((0 : ℤ), (0 : ℤ)) ∈ erosionOffsets s := by
    unfold erosionOffsets
    by_cases hs : 0 < s
    · rw [if_pos hs]
      refine Finset.mem_image.mpr ⟨(s / 2, s / 2), ?_, ?_⟩
      · rw [Finset.mem_product]
        constructor <;> (rw [Finset.mem_range]; omega)
      · simp
    · rw [if_neg hs]
      simp
  have hr := he _ h00
  rw [add_zero, add_zero] at hr
  unfold readB at hr
  rw [dif_pos ⟨by positivity, by exact_mod_cast y.isLt⟩,
    dif_pos ⟨by positivity, by exact_mod_cast x.isLt⟩] at hr
  have hyy : ((y.val : ℤ).toNat) = y.val := Int.toNat_natCast _
  have hxx : ((x.val : ℤ).toNat) = x.val := Int.toNat_natCast _
  rw [show (⟨(y.val : ℤ).toNat, by omega⟩ : Fin h) = y from Fin.ext hyy,
    show (⟨(x.val : ℤ).toNat, by omega⟩ : Fin w) = x from Fin.ext hxx] at hr
  exact hr

/-- The threshold trimap step only emits 0, 255 or 128. -/
theorem alpha_matting_cutout_trimap_cases {h w : ℕ} (mask : Fin h → Fin w → ℕ)
    (ft bt s : ℕ) (y : Fin h) (x : Fin w) :
    alpha_matting_cutout_trimap mask ft bt s y x = 0 ∨
    alpha_matting_cutout_trimap mask ft bt s y x = 255 ∨
    alpha_matting_cutout_trimap mask ft bt s y x = 128 := by
  unfold alpha_matting_cutout_trimap
  by_cases h1 : binaryErosion (fun y x => decide (mask y x < bt)) s true y x = true
  · left
    rw [if_pos h1]
  · rw [if_neg h1]
    by_cases h2 : binaryErosion (fun y x => decide (ft < mask y x)) s false y x = true
    · right
      left
      rw [if_pos h2]
    · right
      right
      rw [if_neg h2]

/-- C8 amended: the threshold trimap step (defaults 240/10/10) is not
idempotent; re-application is contractive instead: wherever the second
output is decisive (0 or 255) it agrees with the first output, so a second
application can only send decisive pixels to unknown (128). -/
theorem C8_trimap_reapplication_contractive {h w : ℕ} (mask : Fin h → Fin w → ℕ)
    (y : Fin h) (x : Fin w)
    (hv : alpha_matting_cutout_trimap
        (alpha_matting_cutout_trimap mask 240 10 10) 240 10 10 y x ≠ 128) :
    alpha_matting_cutout_trimap mask 240 10 10 y x
      = alpha_matting_cutout_trimap
          (alpha_matting_cutout_trimap mask 240 10 10) 240 10 10 y x := by
  have hT2 : alpha_matting_cutout_trimap
      (alpha_matting_cutout_trimap mask 240 10 10) 240 10 10 y x
      = if binaryErosion
            (fun a b => decide (alpha_matting_cutout_trimap mask 240 10 10 a b < 10))
            10 true y x then 0
        else if binaryErosion
            (fun a b => decide (240 < alpha_matting_cutout_trimap mask 240 10 10 a b))
            10 false y x then 255
        else 128 := rfl
  rw [hT2] at hv ⊢
  by_cases hbg : binaryErosion
      (fun a b => decide (alpha_matting_cutout_trimap mask 240 10 10 a b < 10))
      10 true y x = true
  · rw [if_pos hbg]
    have hlt : alpha_matting_cutout_trimap mask 240 10 10 y x < 10 := by
      have hin := binaryErosion_le _ _ _ _ _ hbg
      rwa [decide_eq_true_eq] at hin
    rcases alpha_matting_cutout_trimap_cases mask 240 10 10 y x with h0 | h0 | h0 <;>
      omega
  · rw [if_neg hbg]
    by_cases hfg : binaryErosion
        (fun a b => decide (240 < alpha_matting_cutout_trimap mask 240 10 10 a b))
        10 false y x = true
    · rw [if_pos hfg]
      have hgt : 240 < alpha_matting_cutout_trimap mask 240 10 10 y x := by
        have hin := binaryErosion_le _ _ _ _ _ hfg
        rwa [decide_eq_true_eq] at hin
      rcases alpha_matting_cutout_trimap_cases mask 240 10 10 y x with h0 | h0 | h0 <;>
        omega
    · rw [if_neg hbg, if_neg hfg] at hv
      exact absurd rfl hv

set_option maxRecDepth 10000 in
/-- Witness for the amended C8: a 1×1 all-background mask, whose re-applied
trimap is decisive (0) at the only pixel and agrees with the first output. -/
theorem C8_trimap_reapplication_contractive_witness :
    alpha_matting_cutout_trimap (fun _ _ : Fin 1 => (0 : ℕ)) 240 10 10 0 0
      = alpha_matting_cutout_trimap
          (alpha_matting_cutout_trimap (fun _ _ : Fin 1 => (0 : ℕ)) 240 10 10)
          240 10 10 0 0 :=
  C8_trimap_reapplication_contractive (fun _ _ => 0) 0 0 (by decide)

/-- C10: the heap-explicit matting run never changes a buffer that existed
before the call - the image, prior, confidence and consts arrays among them -
and when it returns a result, the result lives in a buffer the call
allocated and holds exactly the alpha of the pure run: the solution is
written into a fresh copy of the prior, never into the caller buffers. -/
theorem C10_inputs_unchanged (S : SpSolve) (np_pinv : Pinv3) {h w : ℕ}
    (img : Image h w) (prior conf : Fin h → Fin w → ℚ)
    (consts_map : Option (Fin h → Fin w → Bool)) (H : Heap) (next : ℕ) :
    (∀ id, id < next →
      (closed_form_matting_with_prior_heap S np_pinv img prior conf consts_map
        H next).2.1 id = H id) ∧
    (∀ rid,
      (closed_form_matting_with_prior_heap S np_pinv img prior conf consts_map
        H next).1 = .ok rid →
      next ≤ rid ∧ ∃ α ws,
        closed_form_matting_with_prior S np_pinv img prior conf consts_map
          = .ok (α, ws) ∧
        (closed_form_matting_with_prior_heap S np_pinv img prior conf consts_map
          H next).2.1 rid
          = some (bufOf (h * w) fun p => α (unravelY p) (unravelX p))) := by
  unfold closed_form_matting_with_prior_heap closed_form_matting_with_prior
  by_cases hcard : (Finset.univ.filter fun p =>
      unknownFlat conf consts_map p = true).card = 0
  · rw [if_pos hcard, if_pos hcard]
    constructor
    · intro id hid
      show heapWrite _ _ _ id = H id
      unfold heapWrite
      rw [if_neg (by omega), if_neg (by omega)]
    · intro rid hrid
      have hr : rid = next + 1 := by
        have := hrid
        simp at this
        omega
    -- continued below
      subst hr
      refine ⟨by omega, fun y x => clamp01 (prior y x), [], rfl, ?_⟩
      show heapWrite _ _ _ (next + 1) = _
      unfold heapWrite
      rw [if_pos rfl]
      rfl
  · rw [if_neg hcard, if_neg hcard]
    cases hL : compute_laplacian np_pinv img
        (consts_map.map fun m => fun y x => ! m y x) defaultEps 1 with
    | error e =>
        constructor
        · intro id hid
          show heapWrite _ _ _ id = H id
          unfold heapWrite
          rw [if_neg (by omega), if_neg (by omega)]
        · intro rid hrid
          simp at hrid
    | ok L =>
        constructor
        · intro id hid
          show heapWrite _ _ _ id = H id
          unfold heapWrite
          rw [if_neg (by omega), if_neg (by omega), if_neg (by omega),
            if_neg (by omega), if_neg (by omega), if_neg (by omega)]
        · intro rid hrid
          have hr : rid = next + 3 := by
            have := hrid
            simp at this
            omega
          subst hr
          refine ⟨by omega,
            (fun y x => clamp01 (solutionFullOf S L (ravel2 prior) (ravel2 conf)
              (unknownFlat conf consts_map) (ravelFin y x))),
            (solveResultOf S L (ravel2 prior) (ravel2 conf)
              (unknownFlat conf consts_map)).2,
            by simp only [Except.map], ?_⟩
          show heapWrite _ _ _ (next + 3) = _
          unfold heapWrite
          rw [if_pos rfl]
          refine congrArg some ?_
          unfold bufOf
          refine congrArg (fun f => List.map f (List.finRange (h * w)))
            (funext fun p => ?_)
          simp only [ravel_unravel]

/-- Witness for C10 at a concrete 1×1 all-known run over the empty heap: the
result id is fresh and holds the clamped prior. -/
theorem C10_inputs_unchanged_witness :
    0 ≤ 1 ∧ ∃ α ws,
      closed_form_matting_with_prior (fun _ _ _ _ _ => none) (fun _ => 0)
          ((fun _ _ _ => 0) : Image 1 1) (fun _ _ => 1 / 2) (fun _ _ => 0)
          (some fun _ _ => true) = .ok (α, ws) ∧
      (closed_form_matting_with_prior_heap (fun _ _ _ _ _ => none) (fun _ => 0)
          ((fun _ _ _ => 0) : Image 1 1) (fun _ _ => 1 / 2) (fun _ _ => 0)
          (some fun _ _ => true) (fun _ => none) 0).2.1 1
        = some (bufOf (1 * 1) fun p => α (unravelY p) (unravelX p)) :=
  (C10_inputs_unchanged (fun _ _ _ _ _ => none) (fun _ => 0)
      ((fun _ _ _ => 0) : Image 1 1) (fun _ _ => 1 / 2) (fun _ _ => 0)
      (some fun _ _ => true) (fun _ => none) 0).2 1 rfl
